import Mathlib

/-!
Verification of the transaction-building and balance-reconciliation logic of a
DeFi vault front-end: the amount parser, the ERC-20 approve-if-needed state
machine, ETH/WETH dual-balance deposit accounting, withdraw/unwrap guards,
the bundled-transaction progress protocol, and the balance-refresh retry loop.

Strings from the TypeScript source are embedded as `List Char`; JavaScript
bigints as `Nat` (all values in this code are non-negative); thrown errors as
`Except` with an error tag per distinct user-facing message (the interpolated
message text itself is not modelled); transaction hashes as sequential `Nat`
identifiers (the empty-string hash is modelled as `none`).  Asynchronous
wallet/RPC interactions are embedded as a deterministic trace of events: the
chain state read by the code is an explicit environment record, writes and
receipt waits are trace events.
-/

namespace Vault

/-! ## Characters and JavaScript string helpers -/

/-- Characters matched by JavaScript regex `\s` (White_Space plus BOM):
TAB, LF, VT, FF, CR, SP, NBSP, OGHAM, U+2000..U+200A, LS, PS, NNBSP, MMSP,
IDEOGRAPHIC SPACE, ZWNBSP. -/
def jsWs (c : Char) : Bool :=
  let n := c.toNat
  n = 32 || n = 9 || n = 10 || n = 11 || n = 12 || n = 13 ||
  n = 160 || n = 5760 || (8192 ≤ n && n ≤ 8202) || n = 8232 || n = 8233 ||
  n = 8239 || n = 8287 || n = 12288 || n = 65279

/-- Embedding of `amount.trim().replace(/\s+/g, '')`: trimming the ends and
then deleting every remaining whitespace run deletes exactly the whitespace
characters. -/
def sanitize (s : List Char) : List Char := s.filter (fun c => !(jsWs c))

/-- Embedding of JavaScript `String.prototype.split` with a one-character
separator: `splitOnChar sep l` never returns `[]`, and returns `[l]` when
`sep` does not occur. -/
def splitOnChar (sep : Char) : List Char → List (List Char)
  | [] => [[]]
  | c :: rest =>
    let r := splitOnChar sep rest
    if c = sep then [] :: r
    else
      match r with
      | [] => [[c]]
      | h :: t => (c :: h) :: t

/-- JavaScript `a || b` on strings: the empty string is falsy. -/
def jsStringOr (a b : List Char) : List Char := if a.isEmpty then b else a

/-- The number a list of decimal digits denotes, as JavaScript
`BigInt(string)` reads it (most significant digit first). -/
def digitsToNat (s : List Char) : Nat :=
  s.foldl (fun a c => 10 * a + (c.toNat - 48)) 0

/-- Embedding of the test `/^\d+\.?\d*$/.test(s)`: one or more digits, an
optional dot, then zero or more digits. -/
def matchesAmountFormat (s : List Char) : Bool :=
  let intro := s.takeWhile Char.isDigit
  let rest := s.dropWhile Char.isDigit
  !intro.isEmpty &&
    (match rest with
     | [] => true
     | c :: r => c = '.' && r.all Char.isDigit)

/-! ## parseAmount (src/lib/transactionUtilsV2.ts, lines 157-172)

`parseAmount` sanitizes, validates against `^\d+\.?\d*$`, splits on the dot,
truncates the decimal part to `decimals` digits, pads it to exactly
`decimals` digits, and calls viem's `parseUnits` on the normalized string.
On a value whose fractional part has exactly `decimals` digits, viem's
`parseUnits` trims trailing zeros (leaving at most `decimals` digits), takes
its `padEnd` branch (padding the very zeros back), and returns
`BigInt(integer ++ fraction)`; that branch is inlined below as
`digitsToNat integerPart * 10 ^ decimals + digitsToNat paddedDecimal`.
A thrown `Invalid amount format` error is `none`. -/
def parseAmount (amount : List Char) (decimals : Nat) : Option Nat :=
  let sanitizedAmount := sanitize amount
  if matchesAmountFormat sanitizedAmount then
    let parts := splitOnChar '.' sanitizedAmount
    let integerPart := jsStringOr (parts.headD []) [ '0' ]
    let decimalPart := parts.getD 1 []
    let truncatedDecimal := decimalPart.take decimals
    let paddedDecimal :=
      truncatedDecimal ++ List.replicate (decimals - truncatedDecimal.length) '0'
    some (digitsToNat integerPart * 10 ^ decimals + digitsToNat paddedDecimal)
  else none

/-! ## The inline sanitize/validate/truncate/parseUnits path of
`executeVaultAction` (src/hooks/useVaultTransactions.ts, lines 242-281) -/

/-- Helper for the embedding of `parseFloat`: the leading digits, and the
digits after an immediately following dot, of a candidate numeric literal. -/
def mantissaDigits (r : List Char) : List Char × List Char :=
  let d1 := r.takeWhile Char.isDigit
  let r1 := r.dropWhile Char.isDigit
  let d2 :=
    match r1 with
    | '.' :: t => t.takeWhile Char.isDigit
    | _ => []
  (d1, d2)

/-- Whether the string starts with the literal `Infinity` (which
`parseFloat` accepts). -/
def infinityLead (s : List Char) : Bool :=
  s.take 8 = [ 'I', 'n', 'f', 'i', 'n', 'i', 't', 'y' ]

/-- For a sign-free tail: `parseFloat` of it is a number `≤ 0`.  It is `NaN`
(so not `≤ 0`) when no digit is found; otherwise it is `≤ 0` exactly when
every mantissa digit is `0` (the exponent part cannot change that; the
double-precision underflow of positive values below roughly `1e-323` to `0`
is not modelled). -/
def mantissaNonpos (r : List Char) : Bool :=
  if infinityLead r then false
  else
    let d := mantissaDigits r
    if d.1.isEmpty && d.2.isEmpty then false
    else (d.1 ++ d.2).all (fun c => c = '0')

/-- For the tail after a `-` sign: the literal parses (to a negative number
or `-0` or `-Infinity`, all `≤ 0`); `NaN` otherwise. -/
def negParses (r : List Char) : Bool :=
  infinityLead r ||
    (let d := mantissaDigits r
     !(d.1.isEmpty && d.2.isEmpty))

/-- Embedding of the guard value `parseFloat(amount) <= 0`: `parseFloat`
skips leading whitespace, reads an optional sign and the longest numeric
literal prefix, and yields `NaN` (for which the comparison is false) when
there is none. -/
def parseFloatNonpos (s : List Char) : Bool :=
  let t := s.dropWhile jsWs
  match t with
  | '-' :: r => negParses r
  | '+' :: r => mantissaNonpos r
  | r => mantissaNonpos r

/-- Embedding of the inline amount handling of `executeVaultAction` for the
`deposit`/`withdraw` actions: the `!amount || parseFloat(amount) <= 0` guard
(`Invalid amount` error, `none` here), sanitization, normalization of a
leading dot by prepending `0`, the `^\d+\.?\d*$` check, and the
truncate-or-pad split ending in viem `parseUnits` (inlined as in
`parseAmount`: both branches hand `parseUnits` a fraction of exactly
`decimals` digits). -/
def inlineParseAmount (amount : List Char) (decimals : Nat) : Option Nat :=
  if amount.isEmpty || parseFloatNonpos amount then none
  else
    let s0 := sanitize amount
    let sanitizedAmount := if s0.head? = some '.' then '0' :: s0 else s0
    if matchesAmountFormat sanitizedAmount then
      let parts := splitOnChar '.' sanitizedAmount
      let integerPart := jsStringOr (parts.headD []) [ '0' ]
      let decimalPart := parts.getD 1 []
      if decimals < decimalPart.length then
        some (digitsToNat integerPart * 10 ^ decimals +
          digitsToNat (decimalPart.take decimals))
      else
        some (digitsToNat integerPart * 10 ^ decimals +
          digitsToNat (decimalPart ++ List.replicate (decimals - decimalPart.length) '0'))
    else none

/-! ## Specification-side readings of an amount string (used to state C1):
the integer part is everything before the dot, the fractional digits
everything after it. -/

/-- The digits before the dot of a sanitized amount string. -/
def intDigits (s : List Char) : List Char := s.takeWhile (fun c => !(c = '.'))

/-- The digits after the dot of a sanitized amount string (empty when there
is no dot). -/
def fracDigits (s : List Char) : List Char :=
  (s.dropWhile (fun c => !(c = '.'))).tail

/-! ## Errors, progress steps and the event trace

Each constructor of `TxError` stands for one distinct thrown user-facing
message; the interpolated text of the message is not modelled. -/

inductive TxError where
  | walletNotConnected
  | walletAccountUnavailable
  | invalidAmountFormat
  | invalidAmount
  | insufficientEth
  | insufficientWeth
  | insufficientWethVault
  | cannotWrapEth
  | noSharesToWithdraw
  | insufficientVaultBalance
  | noWethToUnwrap
deriving DecidableEq, Repr

/-- Result discriminator for the `Except`-embedded functions. -/
def isOkE {α : Type} : Except TxError α → Bool
  | .ok _ => true
  | .error _ => false

/-- The `'ETH' | 'WETH' | 'ALL'` asset preference of deposits
(withdrawals use only the first two). -/
inductive Pref where
  | eth
  | weth
  | all
deriving DecidableEq, Repr

/-- The `type` discriminator of `TransactionProgressStep`. -/
inductive StepType where
  | signing
  | approving
  | confirming
deriving DecidableEq, Repr

/-- The `stepLabel` strings, as tags; the numbered labels of the bundle
stage carry their `i + 1` and count. -/
inductive StepLabel where
  | resetApproval
  | approveTokenLbl
  | wrapEthLbl
  | unwrapWethLbl
  | depositLbl
  | withdrawLbl
  | redeemLbl
  | transferLbl
  | preAuthorizeN (i n : Nat)
  | preAuthorizeOne
  | approveN (i n : Nat)
  | approveOne
deriving DecidableEq, Repr

/-- One `TransactionProgressStep` callback value.  `stype` embeds the `type`
field; `txHash = none` embeds both an absent `txHash` and the
empty-string placeholder hash. -/
structure ProgressStep where
  stype : StepType
  stepIndex : Nat
  totalSteps : Nat
  stepLabel : StepLabel
  txHash : Option Nat
deriving DecidableEq, Repr

/-- One on-chain write sent with `walletClient.writeContract` or
`walletClient.sendTransaction`. -/
inductive Call where
  | approve (amount : Nat)
  | wethDeposit (value : Nat)
  | wethWithdraw (amount : Nat)
  | vaultDeposit (assets : Nat)
  | vaultWithdraw (assets : Nat)
  | vaultRedeem (shares : Nat)
  | prereqTx
  | bundleTx
deriving DecidableEq, Repr

/-- The observable actions of one execution, in order: progress callbacks,
writes (tagged with a per-execution sequential hash id), receipt waits
(`waitForTransactionReceipt`, tagged with the awaited hash id), and bundle
signature requests. -/
inductive Event where
  | prog (s : ProgressStep)
  | write (id : Nat) (c : Call)
  | wait (id : Nat)
  | sign (i : Nat)
deriving DecidableEq, Repr

/-- The write calls of a trace, in order. -/
def writesOf (evs : List Event) : List Call :=
  evs.filterMap fun e =>
    match e with
    | .write _ c => some c
    | _ => none

/-- The ERC-20 `approve` amounts sent in a trace, in order. -/
def approvalsOf (evs : List Event) : List Nat :=
  evs.filterMap fun e =>
    match e with
    | .write _ (.approve n) => some n
    | _ => none

/-- The WETH `deposit` (wrap) values sent in a trace, in order. -/
def wrapsOf (evs : List Event) : List Nat :=
  evs.filterMap fun e =>
    match e with
    | .write _ (.wethDeposit v) => some v
    | _ => none

/-- The ERC-4626 vault `withdraw` asset amounts sent in a trace, in order. -/
def vaultWithdrawalsOf (evs : List Event) : List Nat :=
  evs.filterMap fun e =>
    match e with
    | .write _ (.vaultWithdraw n) => some n
    | _ => none

/-- The WETH `withdraw` (unwrap) amounts sent in a trace, in order. -/
def unwrapsOf (evs : List Event) : List Nat :=
  evs.filterMap fun e =>
    match e with
    | .write _ (.wethWithdraw n) => some n
    | _ => none

/-- The progress callbacks of a trace, in order. -/
def progsOf (evs : List Event) : List ProgressStep :=
  evs.filterMap fun e =>
    match e with
    | .prog s => some s
    | _ => none

/-- The events of `evs` strictly after the first event satisfying `p` and
strictly before the next event satisfying `q`. -/
def between (p q : Event → Bool) (evs : List Event) : List Event :=
  (((evs.dropWhile (fun e => !(p e))).tail).takeWhile (fun e => !(q e)))

/-- The event is a write of `approve m`. -/
def isApproveW (m : Nat) : Event → Bool
  | .write _ (.approve a) => decide (a = m)
  | _ => false

/-- The event is the write of `approve m` carrying hash id `h`. -/
def isApproveWId (h m : Nat) : Event → Bool
  | .write i (.approve a) => decide (i = h) && decide (a = m)
  | _ => false

/-- The event is a vault `deposit` write. -/
def isDepositW : Event → Bool
  | .write _ (.vaultDeposit _) => true
  | _ => false

/-- The event is a receipt wait. -/
def isWaitE : Event → Bool
  | .wait _ => true
  | _ => false

/-- The event is the receipt wait for hash id `h`. -/
def isWaitFor (h : Nat) : Event → Bool
  | .wait k => decide (k = h)
  | _ => false

/-! ## ensureApproval (src/lib/transactionUtilsV2.ts, lines 178-271)

The chain reads (`allowance`) are passed in; `connected` embeds
`walletClient.account` being available.  Hash ids start at `hashBase`.
Returns whether a USDT-style reset was needed. -/
def ensureApproval (connected : Bool) (allowance amount : Nat)
    (stepIndex totalSteps hashBase : Nat) : List Event × Except TxError Bool :=
  if amount ≤ allowance then ([], .ok false)
  else if !connected then ([], .error .walletAccountUnavailable)
  else if 0 < allowance then
    ([.prog ⟨.approving, stepIndex, totalSteps, .resetApproval, none⟩,
      .write hashBase (.approve 0),
      .prog ⟨.approving, stepIndex, totalSteps, .resetApproval, some hashBase⟩,
      .wait hashBase,
      .prog ⟨.approving, stepIndex + 1, totalSteps, .approveTokenLbl, none⟩,
      .write (hashBase + 1) (.approve amount),
      .prog ⟨.approving, stepIndex + 1, totalSteps, .approveTokenLbl, some (hashBase + 1)⟩,
      .wait (hashBase + 1)], .ok true)
  else
    ([.prog ⟨.approving, stepIndex, totalSteps, .approveTokenLbl, none⟩,
      .write hashBase (.approve amount),
      .prog ⟨.approving, stepIndex, totalSteps, .approveTokenLbl, some hashBase⟩,
      .wait hashBase], .ok false)

/-! ## approveToken (src/lib/transactionUtilsV2.ts, lines 392-485)

Returns the final approval's hash, or `none` embedding the returned empty
string when the allowance already suffices. -/
def approveToken (connected : Bool) (allowance amount : Nat) :
    List Event × Except TxError (Option Nat) :=
  if !connected then ([], .error .walletNotConnected)
  else if amount ≤ allowance then ([], .ok none)
  else if 0 < allowance then
    ([.prog ⟨.approving, 0, 2, .resetApproval, none⟩,
      .write 0 (.approve 0),
      .prog ⟨.approving, 0, 2, .resetApproval, some 0⟩,
      .wait 0,
      .prog ⟨.approving, 1, 2, .approveTokenLbl, none⟩,
      .write 1 (.approve amount),
      .prog ⟨.approving, 1, 2, .approveTokenLbl, some 1⟩,
      .wait 1], .ok (some 1))
  else
    ([.prog ⟨.approving, 0, 1, .approveTokenLbl, none⟩,
      .write 0 (.approve amount),
      .prog ⟨.approving, 0, 1, .approveTokenLbl, some 0⟩,
      .wait 0], .ok (some 0))

/-! ## wrapEthIfNeeded and unwrapWeth (src/lib/transactionUtilsV2.ts,
lines 276-328 and 333-386) -/

def wrapEthIfNeeded (connected : Bool) (ethBalance amount : Nat)
    (stepIndex totalSteps hashBase : Nat) : List Event × Except TxError Unit :=
  if !connected then ([], .error .walletAccountUnavailable)
  else if ethBalance < amount then ([], .error .insufficientEth)
  else
    ([.prog ⟨.confirming, stepIndex, totalSteps, .wrapEthLbl, none⟩,
      .write hashBase (.wethDeposit amount),
      .prog ⟨.confirming, stepIndex, totalSteps, .wrapEthLbl, some hashBase⟩,
      .wait hashBase], .ok ())

/-- Embedding of `unwrapWeth`: it caps the requested amount at the WETH
balance it reads,
throws when that cap is zero, and otherwise sends one WETH `withdraw`. -/
def unwrapWeth (connected : Bool) (wethBalance amount : Nat)
    (stepIndex totalSteps hashBase : Nat) : List Event × Except TxError Nat :=
  if !connected then ([], .error .walletAccountUnavailable)
  else
    let unwrapAmount := if wethBalance < amount then wethBalance else amount
    if unwrapAmount = 0 then ([], .error .noWethToUnwrap)
    else
      ([.prog ⟨.confirming, stepIndex, totalSteps, .unwrapWethLbl, none⟩,
        .write hashBase (.wethWithdraw unwrapAmount),
        .prog ⟨.confirming, stepIndex, totalSteps, .unwrapWethLbl, some hashBase⟩,
        .wait hashBase], .ok hashBase)

/-! ## depositToVaultV2 (src/lib/transactionUtilsV2.ts, lines 490-643)

The chain state the function reads is the environment record below; the
amount is taken after `parseAmount` (its string form and the wallet check
precede everything else in the source, see `depositToVaultV2`). -/

structure DepositEnv where
  connected : Bool
  isWethVault : Bool
  wethBalance : Nat
  ethBalance : Nat
  allowance : Nat

/-- The approval-then-deposit tail shared by every `depositToVaultV2`
branch: the reset accounting of `totalSteps`, `ensureApproval`, and the
`deposit` write with its receipt wait. -/
def depositTail (env : DepositEnv) (amountBigInt : Nat)
    (currentStep totalSteps hashBase : Nat) : List Event × Except TxError Nat :=
  let needsReset := 0 < env.allowance && env.allowance < amountBigInt
  let totalSteps := if needsReset then totalSteps + 1 else totalSteps
  let appr := ensureApproval env.connected env.allowance amountBigInt
    currentStep totalSteps hashBase
  match appr.2 with
  | .error e => (appr.1, .error e)
  | .ok _ =>
    let depositStep := currentStep + (if needsReset then 2 else 1)
    let depositHash := hashBase +
      (if needsReset then 2 else if env.allowance < amountBigInt then 1 else 0)
    (appr.1 ++
      [.prog ⟨.confirming, depositStep, totalSteps, .depositLbl, none⟩,
       .write depositHash (.vaultDeposit amountBigInt),
       .prog ⟨.confirming, depositStep, totalSteps, .depositLbl, some depositHash⟩,
       .wait depositHash], .ok depositHash)

/-- The wrap-then-continue step of `depositToVaultV2` for WETH vaults. -/
def depositWithWrap (env : DepositEnv) (amountBigInt ethToWrap totalSteps : Nat) :
    List Event × Except TxError Nat :=
  if 0 < ethToWrap then
    let w := wrapEthIfNeeded env.connected env.ethBalance ethToWrap 0 totalSteps 0
    match w.2 with
    | .error e => (w.1, .error e)
    | .ok _ =>
      let t := depositTail env amountBigInt 1 totalSteps 1
      (w.1 ++ t.1, t.2)
  else depositTail env amountBigInt 0 totalSteps 0

/-- Embedding of `depositToVaultV2` from the parsed amount on: the
wallet-connected check, the WETH-vault three-way asset-preference policy
with its insufficient-balance errors and `ethToWrap` computation, then
wrap (if any), approval and deposit. -/
def depositCore (env : DepositEnv) (amountBigInt : Nat)
    (preferredAsset : Option Pref) : List Event × Except TxError Nat :=
  if !env.connected then ([], .error .walletNotConnected)
  else if env.isWethVault then
    match preferredAsset.getD .all with
    | .eth =>
      if env.ethBalance < amountBigInt then ([], .error .insufficientEth)
      else depositWithWrap env amountBigInt amountBigInt 3
    | .weth =>
      if env.wethBalance < amountBigInt then ([], .error .insufficientWeth)
      else depositWithWrap env amountBigInt 0 2
    | .all =>
      if env.wethBalance + env.ethBalance < amountBigInt then
        ([], .error .insufficientWethVault)
      else
        let ethToWrap := amountBigInt - env.wethBalance
        depositWithWrap env amountBigInt ethToWrap (if 0 < ethToWrap then 3 else 2)
  else depositTail env amountBigInt 0 2 0

/-- Embedding of `depositToVaultV2` proper: wallet check, then
`parseAmount`, then the
balance/approval/deposit flow of `depositCore`. -/
def depositToVaultV2 (env : DepositEnv) (amount : List Char) (assetDecimals : Nat)
    (preferredAsset : Option Pref) : List Event × Except TxError Nat :=
  if !env.connected then ([], .error .walletNotConnected)
  else
    match parseAmount amount assetDecimals with
    | none => ([], .error .invalidAmountFormat)
    | some amountBigInt => depositCore env amountBigInt preferredAsset

/-! ## withdrawFromVaultV2 (src/lib/transactionUtilsV2.ts, lines 648-759) -/

structure WithdrawEnv where
  connected : Bool
  isWethVault : Bool
  userShares : Nat
  previewWithdraw : Nat → Nat
  convertToAssets : Nat → Nat
  wethBalance : Nat

/-- Embedding of `withdrawFromVaultV2` from the parsed amount on: the
share-balance guard, the `previewWithdraw` sufficiency guard (the
`convertToAssets` call it makes for the error message is a read, not a
write), the `withdraw` write with its receipt wait, and the optional
`unwrapWeth` for WETH vaults withdrawn to ETH. -/
def withdrawCore (env : WithdrawEnv) (amountBigInt : Nat)
    (preferredAsset : Option Pref) : List Event × Except TxError Nat :=
  if !env.connected then ([], .error .walletNotConnected)
  else if env.userShares = 0 then ([], .error .noSharesToWithdraw)
  else
    let sharesNeeded := env.previewWithdraw amountBigInt
    if env.userShares < sharesNeeded then ([], .error .insufficientVaultBalance)
    else
      let toEth := env.isWethVault = true ∧ preferredAsset = some Pref.eth
      let totalSteps := if toEth then 2 else 1
      let base : List Event :=
        [.prog ⟨.confirming, 0, totalSteps, .withdrawLbl, none⟩,
         .write 0 (.vaultWithdraw amountBigInt),
         .prog ⟨.confirming, 0, totalSteps, .withdrawLbl, some 0⟩,
         .wait 0]
      if toEth then
        let u := unwrapWeth env.connected env.wethBalance amountBigInt 1 totalSteps 1
        match u.2 with
        | .error e => (base ++ u.1, .error e)
        | .ok _ => (base ++ u.1, .ok 0)
      else (base, .ok 0)

/-- Embedding of `withdrawFromVaultV2` proper: wallet check,
`parseAmount`, then the
guard/withdraw/unwrap flow of `withdrawCore`. -/
def withdrawFromVaultV2 (env : WithdrawEnv) (amount : List Char)
    (assetDecimals : Nat) (preferredAsset : Option Pref) :
    List Event × Except TxError Nat :=
  if !env.connected then ([], .error .walletNotConnected)
  else
    match parseAmount amount assetDecimals with
    | none => ([], .error .invalidAmountFormat)
    | some amountBigInt => withdrawCore env amountBigInt preferredAsset

/-! ## The deposit branch of executeVaultAction
(src/hooks/useVaultTransactions.ts, lines 347-466)

For the bundler flow the wrap is not sent directly: it is pushed as an
`InputBundlerOperation`.  The operations pushed are modelled below; the
wallet/client/simulation-state availability checks that precede this branch
are assumed passed. -/

inductive BundlerOp where
  | erc20Wrap (amount : Nat)
  | erc20Unwrap (amount : Nat)
  | metaMorphoDeposit (assets : Nat)
  | metaMorphoWithdraw (shares : Nat)
deriving DecidableEq, Repr

/-- The wrap-then-deposit push shared by the three preference branches,
including the defensive `ethToWrap > availableEth` re-check. -/
def pushWrapAndDeposit (ethToWrap ethBalance amountBigInt : Nat) :
    Except TxError (List BundlerOp) :=
  if 0 < ethToWrap then
    if ethBalance < ethToWrap then .error .cannotWrapEth
    else .ok [.erc20Wrap ethToWrap, .metaMorphoDeposit amountBigInt]
  else .ok [.metaMorphoDeposit amountBigInt]

/-- Embedding of the input-operation construction of the `deposit` action of
`executeVaultAction`: the WETH-vault asset-preference policy (identical in
shape to `depositToVaultV2`), the insufficient-balance errors, and the
pushed `Erc20_Wrap`/`MetaMorpho_Deposit` operations. -/
def buildDepositOps (isWethVault : Bool) (wethBalance ethBalance amountBigInt : Nat)
    (preferredAsset : Option Pref) : Except TxError (List BundlerOp) :=
  if isWethVault then
    match preferredAsset.getD .all with
    | .eth =>
      if ethBalance < amountBigInt then .error .insufficientEth
      else pushWrapAndDeposit amountBigInt ethBalance amountBigInt
    | .weth =>
      if wethBalance < amountBigInt then .error .insufficientWeth
      else pushWrapAndDeposit 0 ethBalance amountBigInt
    | .all =>
      if wethBalance + ethBalance < amountBigInt then .error .insufficientWethVault
      else pushWrapAndDeposit (amountBigInt - wethBalance) ethBalance amountBigInt
  else .ok [.metaMorphoDeposit amountBigInt]

/-- The wrap amounts of a built operation list (empty on error). -/
def opWrapsOf : Except TxError (List BundlerOp) → List Nat
  | .ok ops =>
    ops.filterMap fun o =>
      match o with
      | .erc20Wrap v => some v
      | _ => none
  | .error _ => []

/-! ## The bundle stage of executeVaultAction
(src/hooks/useVaultTransactions.ts, lines 743-852)

After `setupBundle` the code signs each required signature, sends and awaits
each prerequisite transaction, and sends the main bundle transaction, with
one progress step per signature, per prerequisite and for the main
transaction.  `signatureCount` and `prerequisiteTxCount` come from the
bundle's requirements. -/

inductive VaultAction where
  | deposit
  | withdraw
  | withdrawAll
  | transfer
deriving DecidableEq, Repr

/-- The per-signature label (`Pre authorize i/n` when several). -/
def signLabel (n i : Nat) : StepLabel :=
  if 1 < n then .preAuthorizeN (i + 1) n else .preAuthorizeOne

/-- The per-prerequisite label (`Approve i/n` when several). -/
def prereqLabel (n i : Nat) : StepLabel :=
  if 1 < n then .approveN (i + 1) n else .approveOne

/-- The main transaction's label from the action. -/
def mainLabel : VaultAction → StepLabel
  | .deposit => .depositLbl
  | .withdraw => .withdrawLbl
  | .withdrawAll => .withdrawLbl
  | .transfer => .transferLbl

/-- Embedding of the bundle stage: `totalSteps = signatureCount +
prerequisiteTxCount + 1`, the signing loop, the prerequisite-transaction
loop (each sent, reported and awaited), and the main bundle transaction
(reported before and after sending; the code does not await its receipt). -/
def bundleStage (signatureCount prerequisiteTxCount : Nat) (action : VaultAction) :
    List Event :=
  let totalSteps := signatureCount + prerequisiteTxCount + 1
  ((List.range signatureCount).flatMap fun i =>
    [.prog ⟨.signing, i, totalSteps, signLabel signatureCount i, none⟩,
     .sign i]) ++
  ((List.range prerequisiteTxCount).flatMap fun i =>
    [.prog ⟨.approving, signatureCount + i, totalSteps,
       prereqLabel prerequisiteTxCount i, none⟩,
     .write i .prereqTx,
     .prog ⟨.approving, signatureCount + i, totalSteps,
       prereqLabel prerequisiteTxCount i, some i⟩,
     .wait i]) ++
  [.prog ⟨.confirming, signatureCount + prerequisiteTxCount, totalSteps,
     mainLabel action, none⟩,
   .write prerequisiteTxCount .bundleTx,
   .prog ⟨.confirming, signatureCount + prerequisiteTxCount, totalSteps,
     mainLabel action, some prerequisiteTxCount⟩]

/-- Rank of a step type in the signature/approval/confirmation order. -/
def stepRank : StepType → Nat
  | .signing => 0
  | .approving => 1
  | .confirming => 2

/-! ## refreshBalancesWithRetry (src/contexts/WalletContext.tsx,
lines 831-868)

`performRefresh`'s outcome at each attempt is the oracle `outcome`:
`none` is success, `some e` failure with error id `e`.  The trace records
attempts and `sleep` calls; the result is `none` on success and the last
error when every attempt failed (the code's final
`throw lastError || new Error(...)` is reached only with `lastError` set,
since the loop returns on success). -/

inductive REvent where
  | attempt (k : Nat)
  | sleep (ms : Nat)
deriving DecidableEq, Repr

/-- The retry loop from attempt number `attempt` on: try, return on
success, otherwise sleep `baseRetryDelay * 2 ^ attempt` and retry while
`attempt < maxRetries`. -/
def retryFrom (outcome : Nat → Option Nat) (maxRetries baseRetryDelay attempt : Nat) :
    List REvent × Option Nat :=
  match outcome attempt with
  | none => ([.attempt attempt], none)
  | some e =>
    if _h : attempt < maxRetries then
      let rest := retryFrom outcome maxRetries baseRetryDelay (attempt + 1)
      (.attempt attempt :: .sleep (baseRetryDelay * 2 ^ attempt) :: rest.1, rest.2)
    else ([.attempt attempt], some e)
termination_by maxRetries - attempt
decreasing_by omega

/-- Embedding of `refreshBalancesWithRetry` with its options resolved
(defaults `maxRetries = 3`, `retryDelay = 1000`). -/
def refreshBalancesWithRetry (outcome : Nat → Option Nat)
    (maxRetries baseRetryDelay : Nat) : List REvent × Option Nat :=
  retryFrom outcome maxRetries baseRetryDelay 0

/-- The refresh-event is an attempt. -/
def isAttemptEv : REvent → Bool
  | .attempt _ => true
  | _ => false

/-! ## List helper lemmas -/

theorem takeWhile_append_all {α : Type} {p : α → Bool} {a : List α} (b : List α)
    (h : ∀ c ∈ a, p c = true) : (a ++ b).takeWhile p = a ++ b.takeWhile p := by
  induction a with
  | nil => simp
  | cons x xs ih =>
    have hx : p x = true := h x (by simp)
    simp only [List.cons_append, List.takeWhile_cons, hx]
    simp [ih fun c hc => h c (by simp [hc])]

theorem dropWhile_append_all {α : Type} {p : α → Bool} {a : List α} (b : List α)
    (h : ∀ c ∈ a, p c = true) : (a ++ b).dropWhile p = b.dropWhile p := by
  induction a with
  | nil => simp
  | cons x xs ih =>
    have hx : p x = true := h x (by simp)
    simp only [List.cons_append, List.dropWhile_cons, hx]
    simp [ih fun c hc => h c (by simp [hc])]

theorem splitOnChar_ne_nil (sep : Char) (l : List Char) : splitOnChar sep l ≠ [] := by
  cases l with
  | nil => simp [splitOnChar]
  | cons c rest =>
    simp only [splitOnChar]
    by_cases hc : c = sep
    · simp [hc]
    · simp only [hc, if_false]
      cases splitOnChar sep rest <;> simp

theorem splitOnChar_no_sep {sep : Char} {l : List Char}
    (h : ∀ c ∈ l, ¬ c = sep) : splitOnChar sep l = [l] := by
  induction l with
  | nil => simp [splitOnChar]
  | cons x xs ih =>
    have hx : ¬ x = sep := h x (by simp)
    simp only [splitOnChar, hx, if_false]
    rw [ih fun c hc => h c (by simp [hc])]

theorem splitOnChar_append {sep : Char} {a : List Char} (b : List Char)
    (h : ∀ c ∈ a, ¬ c = sep) :
    splitOnChar sep (a ++ sep :: b) = a :: splitOnChar sep b := by
  induction a with
  | nil => simp [splitOnChar]
  | cons x xs ih =>
    have hx : ¬ x = sep := h x (by simp)
    simp only [List.cons_append, splitOnChar, hx, if_false]
    rw [show xs.append (sep :: b) = xs ++ sep :: b from rfl,
      ih fun c hc => h c (by simp [hc])]

theorem digitsToNat_append_zeros (l : List Char) (k : Nat) :
    digitsToNat (l ++ List.replicate k '0') = digitsToNat l * 10 ^ k := by
  unfold digitsToNat
  rw [List.foldl_append]
  generalize l.foldl (fun a c => 10 * a + (c.toNat - 48)) 0 = x
  induction k generalizing x with
  | zero => simp
  | succ n ih =>
    rw [List.replicate_succ, List.foldl_cons, ih]
    have h0 : (Char.toNat '0') - 48 = 0 := by decide
    rw [h0]
    ring

theorem digitsToNat_nil : digitsToNat [] = 0 := rfl

theorem digitsToNat_replicate_zero (k : Nat) :
    digitsToNat (List.replicate k '0') = 0 := by
  have h := digitsToNat_append_zeros [] k
  simpa [digitsToNat_nil] using h

/-- Decomposition of a string accepted by `matchesAmountFormat`: a nonempty
digit block, then nothing or a dot followed by digits. -/
theorem matchesAmountFormat_decomp {t : List Char}
    (h : matchesAmountFormat t = true) :
    t.takeWhile Char.isDigit ≠ [] ∧
      (t.dropWhile Char.isDigit = [] ∨
        ∃ r2, t.dropWhile Char.isDigit = '.' :: r2 ∧ (∀ c ∈ r2, c.isDigit)) := by
  unfold matchesAmountFormat at h
  simp only [Bool.and_eq_true, Bool.not_eq_true'] at h
  obtain ⟨h1, h2⟩ := h
  refine ⟨by simpa [List.isEmpty_iff] using h1, ?_⟩
  cases hrest : t.dropWhile Char.isDigit with
  | nil => exact Or.inl rfl
  | cons c r =>
    rw [hrest] at h2
    simp only [Bool.and_eq_true, decide_eq_true_eq] at h2
    exact Or.inr ⟨r, by rw [h2.1], by simpa [List.all_eq_true] using h2.2⟩

/-- Digits are not dots. -/
theorem digit_ne_dot {c : Char} (h : c.isDigit = true) : ¬ c = '.' := by
  intro he
  rw [he] at h
  exact absurd h (by decide)

/-- C1: for every string whose sanitized form matches `^\d+\.?\d*$` and
every decimals count `d`, `parseAmount` returns the integer part times
`10 ^ d` plus the number formed by the first `d` fractional digits padded
with zeros (fractional digits beyond `d` are truncated, never rounded), and
it throws (returns `none`) exactly on the strings that do not match the
format — among them the empty string and strings beginning with a dot. -/
theorem parseAmount_spec (s : List Char) (d : Nat) :
    parseAmount s d =
      if matchesAmountFormat (sanitize s) = true then
        some (digitsToNat (intDigits (sanitize s)) * 10 ^ d +
          digitsToNat ((fracDigits (sanitize s)).take d) *
            10 ^ (d - ((fracDigits (sanitize s)).take d).length))
      else none := by
  by_cases h : matchesAmountFormat (sanitize s) = true
  · rw [if_pos h]
    obtain ⟨hne, hrest⟩ := matchesAmountFormat_decomp h
    have hsplit := List.takeWhile_append_dropWhile Char.isDigit (sanitize s)
    have hdsall : ∀ c ∈ (sanitize s).takeWhile Char.isDigit, c.isDigit = true :=
      fun c hc => List.mem_takeWhile_imp hc
    have hdsnc : ∀ c ∈ (sanitize s).takeWhile Char.isDigit, ¬ c = '.' :=
      fun c hc => digit_ne_dot (hdsall c hc)
    have hdsnc' : ∀ c ∈ (sanitize s).takeWhile Char.isDigit, (!(c = '.' : Bool)) = true := by
      intro c hc
      simpa using hdsnc c hc
    cases hrest with
    | inl hnil =>
      -- no dot: the whole sanitized string is the digit block
      have ht : sanitize s = (sanitize s).takeWhile Char.isDigit := by
        conv_lhs => rw [← hsplit]
        rw [hnil, List.append_nil]
      have hint : intDigits (sanitize s) = sanitize s := by
        unfold intDigits
        rw [ht]
        rw [List.takeWhile_eq_self_iff.mpr hdsnc']
      have hfrac : fracDigits (sanitize s) = [] := by
        unfold fracDigits
        rw [ht]
        rw [List.dropWhile_eq_nil_iff.mpr (fun c hc => hdsnc' c hc)]
        rfl
      unfold parseAmount
      rw [if_pos h]
      have hsp : splitOnChar '.' (sanitize s) = [sanitize s] := by
        apply splitOnChar_no_sep
        intro c hc
        exact hdsnc c (ht ▸ hc)
      rw [hsp]
      simp only [List.headD_cons, List.getD]
      have hje : jsStringOr (sanitize s) [ '0' ] = sanitize s := by
        unfold jsStringOr
        rw [if_neg]
        simp [List.isEmpty_iff]
        intro hx
        exact hne (by rw [← ht, hx])
      rw [hje, hint, hfrac]
      simp [List.getD, digitsToNat_replicate_zero, digitsToNat_nil]
    | inr hdot =>
      obtain ⟨r2, hr2, hr2d⟩ := hdot
      have ht : sanitize s = (sanitize s).takeWhile Char.isDigit ++ '.' :: r2 := by
        conv_lhs => rw [← hsplit]
        rw [hr2]
      have hr2nc : ∀ c ∈ r2, ¬ c = '.' := fun c hc => digit_ne_dot (hr2d c hc)
      have hint : intDigits (sanitize s) = (sanitize s).takeWhile Char.isDigit := by
        unfold intDigits
        conv_lhs => rw [ht]
        rw [takeWhile_append_all _ hdsnc']
        simp [List.takeWhile_cons]
      have hfrac : fracDigits (sanitize s) = r2 := by
        unfold fracDigits
        conv_lhs => rw [ht]
        rw [dropWhile_append_all _ hdsnc']
        simp [List.dropWhile_cons]
      unfold parseAmount
      rw [if_pos h]
      have hsp : splitOnChar '.' (sanitize s) = [(sanitize s).takeWhile Char.isDigit, r2] := by
        conv_lhs => rw [ht]
        rw [splitOnChar_append _ hdsnc, splitOnChar_no_sep hr2nc]
      rw [hsp]
      simp only [List.headD_cons, List.getD, List.get?_cons_succ, List.get?_cons_zero,
        Option.getD_some]
      have hje : jsStringOr ((sanitize s).takeWhile Char.isDigit) [ '0' ] =
          (sanitize s).takeWhile Char.isDigit := by
        unfold jsStringOr
        rw [if_neg]
        simpa [List.isEmpty_iff] using hne
      rw [hje, hint, hfrac]
      rw [digitsToNat_append_zeros]
  · rw [if_neg h]
    unfold parseAmount
    rw [if_neg h]

/-- C9 counterexample: the two amount-parsing paths are not equivalent.  On
the string `.5` (with 2 decimals) the inline path of `executeVaultAction`
normalizes the leading dot and returns `0.50`, while `parseAmount` throws
`Invalid amount format`. -/
theorem inline_parse_diverges_on_dot :
    inlineParseAmount [ '.', '5' ] 2 = some 50 ∧
      parseAmount [ '.', '5' ] 2 = none := by
  constructor <;> rfl

/-- C9 (amended): the two amount-parsing paths agree on every amount string
that does not begin (after whitespace removal) with a decimal point and
whose `parseFloat` value is positive; both then reject the string or both
produce the same bigint. -/
theorem inline_parse_eq_parseAmount (s : List Char) (d : Nat)
    (hd : ¬ (sanitize s).head? = some '.')
    (hg : parseFloatNonpos s = false) :
    inlineParseAmount s d = parseAmount s d := by
  cases hs : s.isEmpty with
  | true =>
    have hnil : s = [] := by simpa [List.isEmpty_iff] using hs
    subst hnil
    rfl
  | false =>
    unfold inlineParseAmount
    rw [hs, hg]
    simp only [Bool.or_self, Bool.false_eq_true, if_false]
    rw [if_neg hd]
    unfold parseAmount
    by_cases hf : matchesAmountFormat (sanitize s) = true
    · rw [if_pos hf, if_pos hf]
      dsimp only
      by_cases hlen : d < ((splitOnChar '.' (sanitize s)).getD 1 []).length
      · rw [if_pos hlen]
        have hlt : ((splitOnChar '.' (sanitize s)).getD 1 []).take d =
            (((splitOnChar '.' (sanitize s)).getD 1 []).take d) ++
              List.replicate (d - (((splitOnChar '.' (sanitize s)).getD 1 []).take d).length) '0' := by
          rw [List.length_take]
          rw [show min d ((splitOnChar '.' (sanitize s)).getD 1 []).length = d by omega]
          simp
        rw [← hlt]
      · rw [if_neg hlen]
        push_neg at hlen
        rw [List.take_of_length_le hlen]
    · rw [if_neg hf, if_neg hf]

/-- C9 witness: the two paths agree at the concrete input `1.2` with one
decimal, where the amended theorem's hypotheses hold. -/
theorem inline_parse_eq_witness :
    inlineParseAmount [ '1', '.', '2' ] 1 = parseAmount [ '1', '.', '2' ] 1 :=
  inline_parse_eq_parseAmount [ '1', '.', '2' ] 1 (by decide) (by decide)

/-- C2: the approve-if-needed state machine, for `approveToken` and
`ensureApproval` with current allowance `a` and requested amount `m`.  If
`a ≥ m`, no transaction is sent and `approveToken` returns the empty string
(`none`).  If `a < m`, the approval amounts sent are exactly `[0, m]` when
`0 < a` (USDT-style reset then approve, two transactions) and `[m]` when
`a = 0` — in particular the approved amount is always exactly `m`, never
unlimited.  And when `0 < a < m`, a receipt wait occurs strictly between the
reset-to-zero write and the approval-for-`m` write. -/
theorem approval_state_machine (a m i t h : Nat) :
    (m ≤ a → approveToken true a m = ([], .ok none) ∧
      ensureApproval true a m i t h = ([], .ok false)) ∧
    (a < m →
      approvalsOf (approveToken true a m).1 = (if 0 < a then [0, m] else [m]) ∧
      approvalsOf (ensureApproval true a m i t h).1 =
        (if 0 < a then [0, m] else [m])) ∧
    (0 < a → a < m →
      (between (isApproveW 0) (isApproveW m) (approveToken true a m).1).any isWaitE
        = true ∧
      (between (isApproveW 0) (isApproveW m)
        (ensureApproval true a m i t h).1).any isWaitE = true) := by
  refine ⟨?_, ?_, ?_⟩
  · intro hle
    constructor
    · unfold approveToken
      rw [if_neg (by simp), if_pos hle]
    · unfold ensureApproval
      rw [if_pos hle]
  · intro hlt
    have hnle : ¬ m ≤ a := by omega
    by_cases ha : 0 < a
    · rw [if_pos ha]
      constructor
      · unfold approveToken
        rw [if_neg (by simp), if_neg hnle, if_pos ha]
        simp [approvalsOf]
      · unfold ensureApproval
        rw [if_neg hnle]
        simp only [Bool.not_true, Bool.false_eq_true, if_false]
        rw [if_pos ha]
        simp [approvalsOf]
    · rw [if_neg ha]
      constructor
      · unfold approveToken
        rw [if_neg (by simp), if_neg hnle, if_neg ha]
        simp [approvalsOf]
      · unfold ensureApproval
        rw [if_neg hnle]
        simp only [Bool.not_true, Bool.false_eq_true, if_false]
        rw [if_neg ha]
        simp [approvalsOf]
  · intro ha hlt
    have hnle : ¬ m ≤ a := by omega
    have hm0 : decide ((0 : Nat) = m) = false := by
      simp
      omega
    constructor
    · unfold approveToken
      rw [if_neg (by simp), if_neg hnle, if_pos ha]
      simp [between, isApproveW, isWaitE, List.dropWhile, List.takeWhile, hm0]
    · unfold ensureApproval
      rw [if_neg hnle]
      simp only [Bool.not_true, Bool.false_eq_true, if_false]
      rw [if_pos ha]
      simp [between, isApproveW, isWaitE, List.dropWhile, List.takeWhile, hm0]

/-- C2 witness: with allowance 1 and amount 2 the machine sends the reset
and then the exact approval, the reset awaited in between. -/
theorem approval_state_machine_witness :
    approvalsOf (approveToken true 1 2).1 = [0, 2] ∧
      (between (isApproveW 0) (isApproveW 2) (approveToken true 1 2).1).any isWaitE
        = true := by
  have hth := approval_state_machine 1 2 0 2 0
  exact ⟨by simpa using (hth.2.1 (by decide)).1, (hth.2.2 (by decide) (by decide)).1⟩

/-- C10: `unwrapWeth` (with the wallet account available) caps the unwrapped
amount at the current WETH balance: the WETH `withdraw` it sends carries
exactly `min requested wethBalance`, it throws `No WETH to unwrap` if and
only if that minimum is zero, and in the error case no transaction at all is
sent. -/
theorem unwrapWeth_caps (wethBalance amount i t h : Nat) :
    (unwrapWeth true wethBalance amount i t h).1 =
      (if min amount wethBalance = 0 then []
       else
        [.prog ⟨.confirming, i, t, .unwrapWethLbl, none⟩,
         .write h (.wethWithdraw (min amount wethBalance)),
         .prog ⟨.confirming, i, t, .unwrapWethLbl, some h⟩,
         .wait h]) ∧
    (unwrapWeth true wethBalance amount i t h).2 =
      (if min amount wethBalance = 0 then .error .noWethToUnwrap else .ok h) := by
  unfold unwrapWeth
  have hmin : (if wethBalance < amount then wethBalance else amount) =
      min amount wethBalance := by
    rcases Nat.lt_or_ge wethBalance amount with hlt | hge
    · rw [if_pos hlt]
      omega
    · rw [if_neg (by omega)]
      omega
  rw [if_neg (by simp)]
  dsimp only
  rw [hmin]
  by_cases hz : min amount wethBalance = 0
  · rw [if_pos hz, if_pos hz, if_pos hz]
    exact ⟨rfl, rfl⟩
  · rw [if_neg hz, if_neg hz, if_neg hz]
    exact ⟨rfl, rfl⟩

/-- C6: the guards of `withdrawFromVaultV2` (after its amount parse, with
the wallet connected).  A zero share balance throws `No shares to withdraw`;
otherwise `previewWithdraw amount` exceeding the share balance throws the
insufficient-balance error; in both error cases no write is sent (the trace
is empty), and exactly when the shares needed are at most the balance the
vault `withdraw` transaction for the requested amount is sent. -/
theorem withdraw_guards (wv : Bool) (sh : Nat) (pv cv : Nat → Nat)
    (wb amt : Nat) (pref : Option Pref) :
    (sh = 0 →
      withdrawCore ⟨true, wv, sh, pv, cv, wb⟩ amt pref =
        ([], .error .noSharesToWithdraw)) ∧
    (0 < sh → sh < pv amt →
      withdrawCore ⟨true, wv, sh, pv, cv, wb⟩ amt pref =
        ([], .error .insufficientVaultBalance)) ∧
    (0 < sh → pv amt ≤ sh →
      vaultWithdrawalsOf (withdrawCore ⟨true, wv, sh, pv, cv, wb⟩ amt pref).1 =
        [amt]) := by
  refine ⟨?_, ?_, ?_⟩
  · intro hz
    unfold withdrawCore
    rw [if_neg (by simp), if_pos hz]
  · intro hpos hover
    unfold withdrawCore
    dsimp only
    rw [if_neg (by simp), if_neg (by omega), if_pos hover]
  · intro hpos hok
    unfold withdrawCore
    dsimp only
    rw [if_neg (by simp), if_neg (by omega), if_neg (by omega)]
    by_cases hteth : wv = true ∧ pref = some Pref.eth
    · rw [if_pos hteth, if_pos hteth]
      unfold unwrapWeth
      rw [if_neg (by simp)]
      dsimp only
      by_cases hz : (if wb < amt then wb else amt) = 0
      · rw [if_pos hz]
        simp [vaultWithdrawalsOf]
      · rw [if_neg hz]
        simp [vaultWithdrawalsOf]
    · rw [if_neg hteth, if_neg hteth]
      simp [vaultWithdrawalsOf]

/-- C6 witness: a vault with 5 shares, identity previews and a requested
amount of 3: only the `withdraw` for 3 assets is sent. -/
theorem withdraw_guards_witness :
    vaultWithdrawalsOf
      (withdrawCore ⟨true, false, 5, fun n => n, fun n => n, 0⟩ 3 none).1 = [3] :=
  (withdraw_guards false 5 (fun n => n) (fun n => n) 0 3 none).2.2
    (by decide) (by decide)

/-! ## Branch characterizations of the deposit flow -/

theorem wrapsOf_append (a b : List Event) :
    wrapsOf (a ++ b) = wrapsOf a ++ wrapsOf b := by
  simp [wrapsOf]

theorem approvalsOf_append (a b : List Event) :
    approvalsOf (a ++ b) = approvalsOf a ++ approvalsOf b := by
  simp [approvalsOf]

/-- The result is an insufficient-balance error. -/
def failsInsufficient {α : Type} : Except TxError α → Bool
  | .error .insufficientEth => true
  | .error .insufficientWeth => true
  | .error .insufficientWethVault => true
  | _ => false

/-- The total amount of ETH wrapped in a trace. -/
def wrapTotal (evs : List Event) : Nat := (wrapsOf evs).sum

theorem ensureApproval_of_le (conn : Bool) (a m i t hb : Nat)
    (h : m ≤ a) : ensureApproval conn a m i t hb = ([], .ok false) := by
  unfold ensureApproval
  rw [if_pos h]

theorem ensureApproval_reset (a m i t hb : Nat)
    (h1 : ¬ m ≤ a) (h2 : 0 < a) :
    ensureApproval true a m i t hb =
      ([.prog ⟨.approving, i, t, .resetApproval, none⟩,
        .write hb (.approve 0),
        .prog ⟨.approving, i, t, .resetApproval, some hb⟩,
        .wait hb,
        .prog ⟨.approving, i + 1, t, .approveTokenLbl, none⟩,
        .write (hb + 1) (.approve m),
        .prog ⟨.approving, i + 1, t, .approveTokenLbl, some (hb + 1)⟩,
        .wait (hb + 1)], .ok true) := by
  unfold ensureApproval
  rw [if_neg h1]
  simp only [Bool.not_true, Bool.false_eq_true, if_false]
  rw [if_pos h2]

theorem ensureApproval_fresh (a m i t hb : Nat)
    (h1 : ¬ m ≤ a) (h2 : ¬ 0 < a) :
    ensureApproval true a m i t hb =
      ([.prog ⟨.approving, i, t, .approveTokenLbl, none⟩,
        .write hb (.approve m),
        .prog ⟨.approving, i, t, .approveTokenLbl, some hb⟩,
        .wait hb], .ok false) := by
  unfold ensureApproval
  rw [if_neg h1]
  simp only [Bool.not_true, Bool.false_eq_true, if_false]
  rw [if_neg h2]

/-- With the wallet connected, the approval-and-deposit tail sends no wrap
and always succeeds. -/
theorem depositTail_spec (env : DepositEnv) (amt cs ts hb : Nat)
    (hc : env.connected = true) :
    wrapsOf (depositTail env amt cs ts hb).1 = [] ∧
      isOkE (depositTail env amt cs ts hb).2 = true := by
  unfold depositTail
  rw [hc]
  by_cases hle : amt ≤ env.allowance
  · have h1 : decide (env.allowance < amt) = false := decide_eq_false (by omega)
    simp only [h1, Bool.and_false, Bool.false_eq_true, if_false,
      ensureApproval_of_le true env.allowance amt cs ts hb hle]
    simp [wrapsOf, isOkE]
  · by_cases ha : 0 < env.allowance
    · have h1 : decide (env.allowance < amt) = true := decide_eq_true (by omega)
      have h2 : decide (0 < env.allowance) = true := decide_eq_true ha
      simp only [h1, h2, Bool.and_self, if_true,
        ensureApproval_reset env.allowance amt cs (ts + 1) hb hle ha]
      simp [wrapsOf, isOkE, wrapsOf_append]
    · have h2 : decide (0 < env.allowance) = false := decide_eq_false ha
      simp only [h2, Bool.false_and, Bool.false_eq_true, if_false,
        ensureApproval_fresh env.allowance amt cs ts hb hle ha]
      simp [wrapsOf, isOkE, wrapsOf_append]

/-- With the wallet connected and enough ETH for the wrap, the
wrap-then-deposit flow wraps exactly `ethToWrap` (nothing when zero) and
succeeds. -/
theorem depositWithWrap_spec (env : DepositEnv) (amt ethToWrap ts : Nat)
    (hc : env.connected = true) (hle : ethToWrap ≤ env.ethBalance) :
    wrapsOf (depositWithWrap env amt ethToWrap ts).1 =
      (if 0 < ethToWrap then [ethToWrap] else []) ∧
      isOkE (depositWithWrap env amt ethToWrap ts).2 = true := by
  by_cases h0 : 0 < ethToWrap
  · have hwr : wrapEthIfNeeded env.connected env.ethBalance ethToWrap 0 ts 0 =
        ([.prog ⟨.confirming, 0, ts, .wrapEthLbl, none⟩,
          .write 0 (.wethDeposit ethToWrap),
          .prog ⟨.confirming, 0, ts, .wrapEthLbl, some 0⟩,
          .wait 0], .ok ()) := by
      unfold wrapEthIfNeeded
      rw [hc]
      simp only [Bool.not_true, Bool.false_eq_true, if_false]
      rw [if_neg (by omega)]
    unfold depositWithWrap
    rw [if_pos h0, hwr]
    dsimp only
    obtain ⟨hw, hk⟩ := depositTail_spec env amt 1 ts 1 hc
    constructor
    · rw [wrapsOf_append, hw, if_pos h0]
      simp [wrapsOf]
    · exact hk
  · unfold depositWithWrap
    rw [if_neg h0, if_neg h0]
    exact depositTail_spec env amt 0 ts 0 hc

theorem failsInsufficient_of_ok {α : Type} {r : Except TxError α}
    (h : isOkE r = true) : failsInsufficient r = false := by
  cases r with
  | ok v => rfl
  | error e => simp [isOkE] at h

/-- Reduction of `depositCore` to its WETH-vault preference arm. -/
theorem depositCore_weth (env : DepositEnv) (amt : Nat) (pa : Option Pref)
    (hc : env.connected = true) (hw : env.isWethVault = true) :
    depositCore env amt pa =
      (match pa.getD .all with
       | .eth =>
         if env.ethBalance < amt then ([], .error .insufficientEth)
         else depositWithWrap env amt amt 3
       | .weth =>
         if env.wethBalance < amt then ([], .error .insufficientWeth)
         else depositWithWrap env amt 0 2
       | .all =>
         if env.wethBalance + env.ethBalance < amt then
           ([], .error .insufficientWethVault)
         else
           depositWithWrap env amt (amt - env.wethBalance)
             (if 0 < amt - env.wethBalance then 3 else 2)) := by
  unfold depositCore
  rw [hc, hw]
  simp

/-- C3: ETH/WETH dual-balance accounting of WETH-vault deposits (wallet
connected, amount already parsed), in both code paths.  With preference
`ALL` (or unspecified) the deposit fails with the insufficient-balance error
exactly when the amount exceeds `existingWETH + availableETH`, and otherwise
wraps exactly `amount - existingWETH` truncated at zero — in particular the
wrap step is skipped whenever the existing WETH alone covers the amount.
With preference `ETH` it fails exactly when the amount exceeds the ETH
balance and otherwise wraps the full amount; with preference `WETH` it fails
exactly when the amount exceeds the WETH balance and never wraps.  The
operation-building path of `executeVaultAction` enforces the same
accounting on its pushed wrap operations. -/
theorem weth_deposit_accounting (env : DepositEnv) (amt : Nat)
    (hc : env.connected = true) (hw : env.isWethVault = true) :
    (∀ pa : Option Pref, pa = none ∨ pa = some .all →
      failsInsufficient (depositCore env amt pa).2 =
        decide (env.wethBalance + env.ethBalance < amt) ∧
      isOkE (depositCore env amt pa).2 =
        !decide (env.wethBalance + env.ethBalance < amt) ∧
      wrapTotal (depositCore env amt pa).1 =
        (if env.wethBalance + env.ethBalance < amt then 0
         else amt - env.wethBalance) ∧
      (amt ≤ env.wethBalance → wrapsOf (depositCore env amt pa).1 = [])) ∧
    (failsInsufficient (depositCore env amt (some .eth)).2 =
        decide (env.ethBalance < amt) ∧
      isOkE (depositCore env amt (some .eth)).2 = !decide (env.ethBalance < amt) ∧
      wrapTotal (depositCore env amt (some .eth)).1 =
        (if env.ethBalance < amt then 0 else amt)) ∧
    (failsInsufficient (depositCore env amt (some .weth)).2 =
        decide (env.wethBalance < amt) ∧
      isOkE (depositCore env amt (some .weth)).2 =
        !decide (env.wethBalance < amt) ∧
      wrapTotal (depositCore env amt (some .weth)).1 = 0) ∧
    (∀ pa : Option Pref, pa = none ∨ pa = some .all →
      failsInsufficient
          (buildDepositOps true env.wethBalance env.ethBalance amt pa) =
        decide (env.wethBalance + env.ethBalance < amt) ∧
      (opWrapsOf (buildDepositOps true env.wethBalance env.ethBalance amt pa)).sum =
        (if env.wethBalance + env.ethBalance < amt then 0
         else amt - env.wethBalance)) ∧
    failsInsufficient
        (buildDepositOps true env.wethBalance env.ethBalance amt (some .eth)) =
      decide (env.ethBalance < amt) ∧
    failsInsufficient
        (buildDepositOps true env.wethBalance env.ethBalance amt (some .weth)) =
      decide (env.wethBalance < amt) ∧
    opWrapsOf (buildDepositOps true env.wethBalance env.ethBalance amt (some .weth))
      = [] := by
  have hall : ∀ pa : Option Pref, pa = none ∨ pa = some .all →
      depositCore env amt pa =
        (if env.wethBalance + env.ethBalance < amt then
          ([], .error .insufficientWethVault)
         else
          depositWithWrap env amt (amt - env.wethBalance)
            (if 0 < amt - env.wethBalance then 3 else 2)) := by
    intro pa hpa
    rcases hpa with h | h <;> (subst h; rw [depositCore_weth env amt _ hc hw]; rfl)
  refine ⟨?_, ?_, ?_, ?_, ?_, ?_, ?_⟩
  · intro pa hpa
    rw [hall pa hpa]
    by_cases hov : env.wethBalance + env.ethBalance < amt
    · rw [if_pos hov, if_pos hov]
      refine ⟨by simp [failsInsufficient, hov], by simp [isOkE, hov], ?_, ?_⟩
      · simp [wrapTotal, wrapsOf]
      · intro hle
        simp [wrapsOf]
    · rw [if_neg hov, if_neg hov]
      obtain ⟨hwr, hok⟩ := depositWithWrap_spec env amt (amt - env.wethBalance)
        (if 0 < amt - env.wethBalance then 3 else 2) hc (by omega)
      refine ⟨by rw [failsInsufficient_of_ok hok]; simp [hov],
        by rw [hok]; simp [hov], ?_, ?_⟩
      · rw [wrapTotal, hwr]
        by_cases h0 : 0 < amt - env.wethBalance
        · rw [if_pos h0]
          simp
        · rw [if_neg h0]
          simp
          omega
      · intro hle
        rw [hwr, if_neg (by omega)]
  · have hE : depositCore env amt (some Pref.eth) =
        (if env.ethBalance < amt then ([], .error .insufficientEth)
         else depositWithWrap env amt amt 3) := by
      rw [depositCore_weth env amt _ hc hw]
      rfl
    rw [hE]
    by_cases hov : env.ethBalance < amt
    · rw [if_pos hov]
      exact ⟨by simp [failsInsufficient, hov], by simp [isOkE, hov],
        by simp [wrapTotal, wrapsOf, hov]⟩
    · rw [if_neg hov]
      obtain ⟨hwr, hok⟩ := depositWithWrap_spec env amt amt 3 hc (by omega)
      refine ⟨by rw [failsInsufficient_of_ok hok]; simp [hov],
        by rw [hok]; simp [hov], ?_⟩
      rw [wrapTotal, hwr, if_neg hov]
      by_cases h0 : 0 < amt
      · rw [if_pos h0]
        simp
      · rw [if_neg h0]
        simp
        omega
  · have hW : depositCore env amt (some Pref.weth) =
        (if env.wethBalance < amt then ([], .error .insufficientWeth)
         else depositWithWrap env amt 0 2) := by
      rw [depositCore_weth env amt _ hc hw]
      rfl
    rw [hW]
    by_cases hov : env.wethBalance < amt
    · rw [if_pos hov]
      exact ⟨by simp [failsInsufficient, hov], by simp [isOkE, hov],
        by simp [wrapTotal, wrapsOf]⟩
    · rw [if_neg hov]
      obtain ⟨hwr, hok⟩ := depositWithWrap_spec env amt 0 2 hc (by omega)
      refine ⟨by rw [failsInsufficient_of_ok hok]; simp [hov],
        by rw [hok]; simp [hov], ?_⟩
      rw [wrapTotal, hwr]
      simp
  · intro pa hpa
    have hred : buildDepositOps true env.wethBalance env.ethBalance amt pa =
        (if env.wethBalance + env.ethBalance < amt then .error .insufficientWethVault
         else pushWrapAndDeposit (amt - env.wethBalance) env.ethBalance amt) := by
      rcases hpa with h | h <;> (subst h; rfl)
    rw [hred]
    by_cases hov : env.wethBalance + env.ethBalance < amt
    · rw [if_pos hov, if_pos hov]
      exact ⟨by simp [failsInsufficient, hov], by simp [opWrapsOf]⟩
    · rw [if_neg hov, if_neg hov]
      unfold pushWrapAndDeposit
      by_cases h0 : 0 < amt - env.wethBalance
      · rw [if_pos h0, if_neg (by omega)]
        exact ⟨by simp [failsInsufficient, hov], by simp [opWrapsOf]⟩
      · rw [if_neg h0]
        refine ⟨by simp [failsInsufficient, hov], ?_⟩
        simp [opWrapsOf]
        omega
  · unfold buildDepositOps
    by_cases hov : env.ethBalance < amt
    · simp only [if_true]
      rw [show (some Pref.eth).getD .all = Pref.eth from rfl]
      simp only [if_pos hov]
      simp [failsInsufficient, hov]
    · simp only [if_true]
      rw [show (some Pref.eth).getD .all = Pref.eth from rfl]
      simp only [if_neg hov]
      unfold pushWrapAndDeposit
      by_cases h0 : 0 < amt
      · rw [if_pos h0, if_neg (by omega)]
        simp [failsInsufficient, hov]
      · rw [if_neg h0]
        simp [failsInsufficient, hov]
  · unfold buildDepositOps
    by_cases hov : env.wethBalance < amt
    · simp only [if_true]
      rw [show (some Pref.weth).getD .all = Pref.weth from rfl]
      simp only [if_pos hov]
      simp [failsInsufficient, hov]
    · simp only [if_true]
      rw [show (some Pref.weth).getD .all = Pref.weth from rfl]
      simp only [if_neg hov]
      unfold pushWrapAndDeposit
      rw [if_neg (by omega)]
      simp [failsInsufficient, hov]
  · unfold buildDepositOps
    by_cases hov : env.wethBalance < amt
    · simp only [if_true]
      rw [show (some Pref.weth).getD .all = Pref.weth from rfl]
      simp only [if_pos hov]
      simp [opWrapsOf]
    · simp only [if_true]
      rw [show (some Pref.weth).getD .all = Pref.weth from rfl]
      simp only [if_neg hov]
      unfold pushWrapAndDeposit
      rw [if_neg (by omega)]
      simp [opWrapsOf]

/-- C3 witness: a WETH vault with 2 WETH and 5 ETH available and a request
for 4 (no preference): exactly `4 - 2 = 2` ETH is wrapped. -/
theorem weth_deposit_accounting_witness :
    wrapTotal (depositCore ⟨true, true, 2, 5, 0⟩ 4 none).1 = 2 := by
  have hth := weth_deposit_accounting ⟨true, true, 2, 5, 0⟩ 4 rfl rfl
  have h2 := (hth.1 none (Or.inl rfl)).2.2.1
  simpa using h2

/-- C4 counterexample: no gas reserve is kept.  With 0 WETH, exactly 5 wei
of ETH and a deposit of 5 with preference `ETH`, the flow succeeds and wraps
the user's entire ETH balance (the wrapped amount equals, rather than stays
strictly below, the available ETH; the source comments that all ETH may be
wrapped since gas can be paid in USDC on Base). -/
theorem wrap_gas_reserve_counterexample :
    wrapsOf (depositCore ⟨true, true, 0, 5, 0⟩ 5 (some .eth)).1 = [5] ∧
      isOkE (depositCore ⟨true, true, 0, 5, 0⟩ 5 (some .eth)).2 = true := by
  constructor <;> rfl

/-- C4 (amended): the ETH wrapped by the deposit flow never exceeds the
user's available ETH balance (it may equal it: the whole balance can be
wrapped), in both the direct `depositToVaultV2` path and the
operation-building path of `executeVaultAction`. -/
theorem wrap_bounded_by_eth (env : DepositEnv) (amt : Nat) (pa : Option Pref)
    (iw : Bool) (w e a2 : Nat) (pb : Option Pref) :
    ((wrapsOf (depositCore env amt pa).1).all
      (fun v => decide (v ≤ env.ethBalance))) = true ∧
    ((opWrapsOf (buildDepositOps iw w e a2 pb)).all
      (fun v => decide (v ≤ e))) = true := by
  constructor
  · cases hcon : env.connected with
    | false =>
      unfold depositCore
      rw [hcon]
      simp [wrapsOf]
    | true =>
      cases hwv : env.isWethVault with
      | false =>
        unfold depositCore
        rw [hcon, hwv]
        simp only [Bool.not_true, Bool.false_eq_true, if_false]
        rw [(depositTail_spec env amt 0 2 0 hcon).1]
        rfl
      | true =>
        have hbound : ∀ x ts, x ≤ env.ethBalance →
            ((wrapsOf (depositWithWrap env amt x ts).1).all
              (fun v => decide (v ≤ env.ethBalance))) = true := by
          intro x ts hx
          rw [(depositWithWrap_spec env amt x ts hcon hx).1]
          by_cases h0 : 0 < x
          · rw [if_pos h0]
            simp only [List.all_cons, List.all_nil, Bool.and_true]
            exact decide_eq_true hx
          · rw [if_neg h0]
            rfl
        match pa with
        | some Pref.eth =>
          rw [show depositCore env amt (some Pref.eth) =
              (if env.ethBalance < amt then ([], .error .insufficientEth)
               else depositWithWrap env amt amt 3) from
              depositCore_weth env amt _ hcon hwv]
          by_cases hov : env.ethBalance < amt
          · rw [if_pos hov]
            rfl
          · rw [if_neg hov]
            exact hbound amt 3 (by omega)
        | some Pref.weth =>
          rw [show depositCore env amt (some Pref.weth) =
              (if env.wethBalance < amt then ([], .error .insufficientWeth)
               else depositWithWrap env amt 0 2) from
              depositCore_weth env amt _ hcon hwv]
          by_cases hov : env.wethBalance < amt
          · rw [if_pos hov]
            rfl
          · rw [if_neg hov]
            exact hbound 0 2 (by omega)
        | some Pref.all =>
          rw [show depositCore env amt (some Pref.all) =
              (if env.wethBalance + env.ethBalance < amt then
                ([], .error .insufficientWethVault)
               else depositWithWrap env amt (amt - env.wethBalance)
                (if 0 < amt - env.wethBalance then 3 else 2)) from
              depositCore_weth env amt _ hcon hwv]
          by_cases hov : env.wethBalance + env.ethBalance < amt
          · rw [if_pos hov]
            rfl
          · rw [if_neg hov]
            exact hbound (amt - env.wethBalance) _ (by omega)
        | none =>
          rw [show depositCore env amt none =
              (if env.wethBalance + env.ethBalance < amt then
                ([], .error .insufficientWethVault)
               else depositWithWrap env amt (amt - env.wethBalance)
                (if 0 < amt - env.wethBalance then 3 else 2)) from
              depositCore_weth env amt _ hcon hwv]
          by_cases hov : env.wethBalance + env.ethBalance < amt
          · rw [if_pos hov]
            rfl
          · rw [if_neg hov]
            exact hbound (amt - env.wethBalance) _ (by omega)
  · have hpush : ∀ x a3,
        ((opWrapsOf (pushWrapAndDeposit x e a3)).all
          (fun v => decide (v ≤ e))) = true := by
      intro x a3
      unfold pushWrapAndDeposit
      by_cases h0 : 0 < x
      · rw [if_pos h0]
        by_cases he : e < x
        · rw [if_pos he]
          rfl
        · rw [if_neg he]
          simp only [opWrapsOf, List.filterMap_cons, List.filterMap_nil,
            List.all_cons, List.all_nil, Bool.and_true]
          exact decide_eq_true (by omega)
      · rw [if_neg h0]
        rfl
    cases iw with
    | false => rfl
    | true =>
      match pb with
      | some Pref.eth =>
        rw [show buildDepositOps true w e a2 (some Pref.eth) =
            (if e < a2 then .error .insufficientEth
             else pushWrapAndDeposit a2 e a2) from rfl]
        by_cases hov : e < a2
        · rw [if_pos hov]
          rfl
        · rw [if_neg hov]
          exact hpush a2 a2
      | some Pref.weth =>
        rw [show buildDepositOps true w e a2 (some Pref.weth) =
            (if w < a2 then .error .insufficientWeth
             else pushWrapAndDeposit 0 e a2) from rfl]
        by_cases hov : w < a2
        · rw [if_pos hov]
          rfl
        · rw [if_neg hov]
          exact hpush 0 a2
      | some Pref.all =>
        rw [show buildDepositOps true w e a2 (some Pref.all) =
            (if w + e < a2 then .error .insufficientWethVault
             else pushWrapAndDeposit (a2 - w) e a2) from rfl]
        by_cases hov : w + e < a2
        · rw [if_pos hov]
          rfl
        · rw [if_neg hov]
          exact hpush (a2 - w) a2
      | none =>
        rw [show buildDepositOps true w e a2 none =
            (if w + e < a2 then .error .insufficientWethVault
             else pushWrapAndDeposit (a2 - w) e a2) from rfl]
        by_cases hov : w + e < a2
        · rw [if_pos hov]
          rfl
        · rw [if_neg hov]
          exact hpush (a2 - w) a2

/-! ## On-chain ordering of approval and deposit (C5) -/

theorem between_append (p q : Event → Bool) (pre evs : List Event)
    (hp : ∀ e ∈ pre, p e = false) :
    between p q (pre ++ evs) = between p q evs := by
  unfold between
  rw [dropWhile_append_all evs (fun e he => by simp [hp e he])]

/-- Full trace of the approval-and-deposit tail when a USDT-style reset is
needed. -/
theorem depositTail_trace_reset (env : DepositEnv) (amt cs ts hb : Nat)
    (hc : env.connected = true) (ha : 0 < env.allowance)
    (hal : env.allowance < amt) :
    depositTail env amt cs ts hb =
      ([.prog ⟨.approving, cs, ts + 1, .resetApproval, none⟩,
        .write hb (.approve 0),
        .prog ⟨.approving, cs, ts + 1, .resetApproval, some hb⟩,
        .wait hb,
        .prog ⟨.approving, cs + 1, ts + 1, .approveTokenLbl, none⟩,
        .write (hb + 1) (.approve amt),
        .prog ⟨.approving, cs + 1, ts + 1, .approveTokenLbl, some (hb + 1)⟩,
        .wait (hb + 1),
        .prog ⟨.confirming, cs + 2, ts + 1, .depositLbl, none⟩,
        .write (hb + 2) (.vaultDeposit amt),
        .prog ⟨.confirming, cs + 2, ts + 1, .depositLbl, some (hb + 2)⟩,
        .wait (hb + 2)], .ok (hb + 2)) := by
  unfold depositTail
  rw [hc]
  have h1 : decide (env.allowance < amt) = true := decide_eq_true hal
  have h2 : decide (0 < env.allowance) = true := decide_eq_true ha
  simp only [h1, h2, Bool.and_self, if_true,
    ensureApproval_reset env.allowance amt cs (ts + 1) hb (by omega) ha]
  rfl

/-- Full trace of the approval-and-deposit tail for a fresh approval
(zero allowance). -/
theorem depositTail_trace_fresh (env : DepositEnv) (amt cs ts hb : Nat)
    (hc : env.connected = true) (ha : ¬ 0 < env.allowance)
    (hal : env.allowance < amt) :
    depositTail env amt cs ts hb =
      ([.prog ⟨.approving, cs, ts, .approveTokenLbl, none⟩,
        .write hb (.approve amt),
        .prog ⟨.approving, cs, ts, .approveTokenLbl, some hb⟩,
        .wait hb,
        .prog ⟨.confirming, cs + 1, ts, .depositLbl, none⟩,
        .write (hb + 1) (.vaultDeposit amt),
        .prog ⟨.confirming, cs + 1, ts, .depositLbl, some (hb + 1)⟩,
        .wait (hb + 1)], .ok (hb + 1)) := by
  unfold depositTail
  rw [hc]
  have h1 : decide (env.allowance < amt) = true := decide_eq_true hal
  have h2 : decide (0 < env.allowance) = false := decide_eq_false ha
  simp only [h1, h2, Bool.false_and, Bool.false_eq_true, if_false,
    ensureApproval_fresh env.allowance amt cs ts hb (by omega) ha]
  rw [if_pos hal]
  rfl

/-- The ordering and uniqueness facts of C5, for the tail alone. -/
theorem depositTail_order (env : DepositEnv) (amt cs ts hb : Nat)
    (hc : env.connected = true) (hal : env.allowance < amt) :
    (∃ h,
      (depositTail env amt cs ts hb).1.countP (isApproveW amt) = 1 ∧
      (between (isApproveWId h amt) isDepositW
        (depositTail env amt cs ts hb).1).any (isWaitFor h) = true) ∧
    (depositTail env amt cs ts hb).1.countP isDepositW = 1 ∧
    (0 < env.allowance →
      (depositTail env amt cs ts hb).1.countP (isApproveW 0) = 1 ∧
      ∃ h0,
        (between (isApproveWId h0 0) (isApproveW amt)
          (depositTail env amt cs ts hb).1).any (isWaitFor h0) = true) := by
  have hamt : decide (amt = amt) = true := decide_eq_true rfl
  have hz : decide ((0 : Nat) = amt) = false := decide_eq_false (by omega)
  have hz2 : decide (amt = 0) = false := decide_eq_false (by omega)
  have hbb : decide (hb = hb) = true := decide_eq_true rfl
  have hb1 : decide (hb + 1 = hb + 1) = true := decide_eq_true rfl
  have hb01 : decide (hb = hb + 1) = false := decide_eq_false (by omega)
  by_cases ha : 0 < env.allowance
  · rw [depositTail_trace_reset env amt cs ts hb hc ha hal]
    refine ⟨⟨hb + 1, ?_, ?_⟩, ?_, fun _ => ⟨?_, ⟨hb, ?_⟩⟩⟩
    · simp [List.countP, List.countP.go, isApproveW, hamt, hz]
    · simp [between, List.dropWhile, List.takeWhile, isApproveWId, isApproveW,
        isDepositW, isWaitFor, hamt, hz, hbb, hb1, hb01]
    · simp [List.countP, List.countP.go, isDepositW]
    · simp [List.countP, List.countP.go, isApproveW, hz2]
    · simp [between, List.dropWhile, List.takeWhile, isApproveWId, isApproveW,
        isDepositW, isWaitFor, hamt, hz, hz2, hbb, hb1, hb01]
  · rw [depositTail_trace_fresh env amt cs ts hb hc ha hal]
    refine ⟨⟨hb, ?_, ?_⟩, ?_, fun hcontra => absurd hcontra ha⟩
    · simp [List.countP, List.countP.go, isApproveW, hamt]
    · simp [between, List.dropWhile, List.takeWhile, isApproveWId, isApproveW,
        isDepositW, isWaitFor, hamt, hbb]
    · simp [List.countP, List.countP.go, isDepositW]

theorem wrapEthIfNeeded_ok (env : DepositEnv) (x ts : Nat)
    (hc : env.connected = true) (hle : x ≤ env.ethBalance) :
    wrapEthIfNeeded env.connected env.ethBalance x 0 ts 0 =
      ([.prog ⟨.confirming, 0, ts, .wrapEthLbl, none⟩,
        .write 0 (.wethDeposit x),
        .prog ⟨.confirming, 0, ts, .wrapEthLbl, some 0⟩,
        .wait 0], .ok ()) := by
  unfold wrapEthIfNeeded
  rw [hc]
  simp only [Bool.not_true, Bool.false_eq_true, if_false]
  rw [if_neg (by omega)]

theorem depositWithWrap_decomp (env : DepositEnv) (amt x ts : Nat)
    (hc : env.connected = true) (h0 : 0 < x) (hle : x ≤ env.ethBalance) :
    depositWithWrap env amt x ts =
      ([.prog ⟨.confirming, 0, ts, .wrapEthLbl, none⟩,
        .write 0 (.wethDeposit x),
        .prog ⟨.confirming, 0, ts, .wrapEthLbl, some 0⟩,
        .wait 0] ++ (depositTail env amt 1 ts 1).1,
       (depositTail env amt 1 ts 1).2) := by
  unfold depositWithWrap
  rw [if_pos h0, wrapEthIfNeeded_ok env x ts hc hle]

/-- The ordering and uniqueness facts of C5 for the wrap-prefixed flow. -/
theorem depositWrapped_order (env : DepositEnv) (amt x ts : Nat)
    (hc : env.connected = true) (hal : env.allowance < amt)
    (h0 : 0 < x) (hle : x ≤ env.ethBalance) :
    (∃ h,
      (depositWithWrap env amt x ts).1.countP (isApproveW amt) = 1 ∧
      (between (isApproveWId h amt) isDepositW
        (depositWithWrap env amt x ts).1).any (isWaitFor h) = true) ∧
    (depositWithWrap env amt x ts).1.countP isDepositW = 1 ∧
    (0 < env.allowance →
      (depositWithWrap env amt x ts).1.countP (isApproveW 0) = 1 ∧
      ∃ h0,
        (between (isApproveWId h0 0) (isApproveW amt)
          (depositWithWrap env amt x ts).1).any (isWaitFor h0) = true) := by
  rw [depositWithWrap_decomp env amt x ts hc h0 hle]
  obtain ⟨⟨h, hcnt, hbet⟩, hdep, hres⟩ := depositTail_order env amt 1 ts 1 hc hal
  have hmem : ∀ p : Event → Bool,
      (p (.prog ⟨.confirming, 0, ts, .wrapEthLbl, none⟩) = false) →
      (p (.write 0 (.wethDeposit x)) = false) →
      (p (.prog ⟨.confirming, 0, ts, .wrapEthLbl, some 0⟩) = false) →
      (p (.wait 0) = false) →
      ∀ e ∈ ([.prog ⟨.confirming, 0, ts, .wrapEthLbl, none⟩,
        .write 0 (.wethDeposit x),
        .prog ⟨.confirming, 0, ts, .wrapEthLbl, some 0⟩,
        .wait 0] : List Event), p e = false := by
    intro p p1 p2 p3 p4 e he
    simp only [List.mem_cons, List.not_mem_nil, or_false] at he
    rcases he with rfl | rfl | rfl | rfl
    · exact p1
    · exact p2
    · exact p3
    · exact p4
  refine ⟨⟨h, ?_, ?_⟩, ?_, ?_⟩
  · rw [List.countP_append, hcnt]
    rfl
  · rw [between_append _ _ _ _ (hmem _ rfl rfl rfl rfl)]
    exact hbet
  · rw [List.countP_append, hdep]
    rfl
  · intro ha
    obtain ⟨hc0, h0w, hbet0⟩ := hres ha
    refine ⟨?_, ⟨h0w, ?_⟩⟩
    · rw [List.countP_append, hc0]
      rfl
    · rw [between_append _ _ _ _ (hmem _ rfl rfl rfl rfl)]
      exact hbet0

/-- C5: sequential awaits enforce on-chain ordering in `depositToVaultV2`.
In every successful execution needing an approval (allowance below amount,
wallet connected), exactly one approval for the amount and exactly one
deposit are sent; the receipt of the approval transaction is awaited
strictly between the approval write and the deposit write; and when a
reset-to-zero was needed, the reset's receipt is awaited strictly between
the reset write and the exact-amount approval write. -/
theorem deposit_awaits_approval (env : DepositEnv) (amt : Nat)
    (pref : Option Pref) (hc : env.connected = true)
    (hal : env.allowance < amt)
    (hok : isOkE (depositCore env amt pref).2 = true) :
    (∃ h,
      (depositCore env amt pref).1.countP (isApproveW amt) = 1 ∧
      (between (isApproveWId h amt) isDepositW
        (depositCore env amt pref).1).any (isWaitFor h) = true) ∧
    (depositCore env amt pref).1.countP isDepositW = 1 ∧
    (0 < env.allowance →
      (depositCore env amt pref).1.countP (isApproveW 0) = 1 ∧
      ∃ h0,
        (between (isApproveWId h0 0) (isApproveW amt)
          (depositCore env amt pref).1).any (isWaitFor h0) = true) := by
  cases hwv : env.isWethVault with
  | false =>
    have heq : depositCore env amt pref = depositTail env amt 0 2 0 := by
      unfold depositCore
      rw [hc, hwv]
      simp
    rw [heq]
    exact depositTail_order env amt 0 2 0 hc hal
  | true =>
    cases hga : pref.getD Pref.all with
    | eth =>
      have heq : depositCore env amt pref =
          (if env.ethBalance < amt then ([], .error .insufficientEth)
           else depositWithWrap env amt amt 3) := by
        rw [depositCore_weth env amt pref hc hwv, hga]
      by_cases hov : env.ethBalance < amt
      · rw [heq, if_pos hov] at hok
        simp [isOkE] at hok
      · rw [heq, if_neg hov]
        exact depositWrapped_order env amt amt 3 hc hal (by omega) (by omega)
    | weth =>
      have heq : depositCore env amt pref =
          (if env.wethBalance < amt then ([], .error .insufficientWeth)
           else depositWithWrap env amt 0 2) := by
        rw [depositCore_weth env amt pref hc hwv, hga]
      by_cases hov : env.wethBalance < amt
      · rw [heq, if_pos hov] at hok
        simp [isOkE] at hok
      · rw [heq, if_neg hov]
        have hdw : depositWithWrap env amt 0 2 = depositTail env amt 0 2 0 := by
          unfold depositWithWrap
          rw [if_neg (by omega)]
        rw [hdw]
        exact depositTail_order env amt 0 2 0 hc hal
    | all =>
      have heq : depositCore env amt pref =
          (if env.wethBalance + env.ethBalance < amt then
            ([], .error .insufficientWethVault)
           else depositWithWrap env amt (amt - env.wethBalance)
            (if 0 < amt - env.wethBalance then 3 else 2)) := by
        rw [depositCore_weth env amt pref hc hwv, hga]
      by_cases hov : env.wethBalance + env.ethBalance < amt
      · rw [heq, if_pos hov] at hok
        simp [isOkE] at hok
      · by_cases h0 : 0 < amt - env.wethBalance
        · rw [heq, if_neg hov, if_pos h0]
          exact depositWrapped_order env amt (amt - env.wethBalance) 3 hc hal h0
            (by omega)
        · have hdw : depositWithWrap env amt (amt - env.wethBalance) 2 =
              depositTail env amt 0 2 0 := by
            unfold depositWithWrap
            rw [if_neg h0]
          rw [heq, if_neg hov, if_neg h0, hdw]
          exact depositTail_order env amt 0 2 0 hc hal

/-- C5 witness: a non-WETH vault with allowance 2 and amount 5 (the reset
path): one deposit write and one reset-to-zero approval write are sent. -/
theorem deposit_awaits_approval_witness :
    (depositCore ⟨true, false, 0, 0, 2⟩ 5 none).1.countP isDepositW = 1 ∧
      (depositCore ⟨true, false, 0, 0, 2⟩ 5 none).1.countP (isApproveW 0) = 1 := by
  have hth := deposit_awaits_approval ⟨true, false, 0, 0, 2⟩ 5 none rfl
    (by decide) (by decide)
  exact ⟨hth.2.1, (hth.2.2 (by decide)).1⟩

/-! ## The retry loop (C7) -/

theorem retryFrom_count_le (outcome : Nat → Option Nat) (mr b : Nat) :
    ∀ n a, mr - a ≤ n →
      (retryFrom outcome mr b a).1.countP isAttemptEv ≤ mr - a + 1 := by
  intro n
  induction n with
  | zero =>
    intro a hn
    rw [retryFrom]
    cases h : outcome a with
    | none =>
      dsimp only
      simp only [List.countP_cons, List.countP_nil, isAttemptEv, eq_self_iff_true,
          Bool.false_eq_true, if_true, if_false]
      omega
    | some e =>
      dsimp only
      rw [dif_neg (by omega)]
      simp only [List.countP_cons, List.countP_nil, isAttemptEv, eq_self_iff_true,
          Bool.false_eq_true, if_true, if_false]
      omega
  | succ n ih =>
    intro a hn
    rw [retryFrom]
    cases h : outcome a with
    | none =>
      dsimp only
      simp only [List.countP_cons, List.countP_nil, isAttemptEv, eq_self_iff_true,
          Bool.false_eq_true, if_true, if_false]
      omega
    | some e =>
      dsimp only
      by_cases hlt : a < mr
      · rw [dif_pos hlt]
        have hih := ih (a + 1) (by omega)
        simp only [List.countP_cons, List.countP_nil, isAttemptEv, eq_self_iff_true,
          Bool.false_eq_true, if_true, if_false]
        omega
      · rw [dif_neg hlt]
        simp only [List.countP_cons, List.countP_nil, isAttemptEv, eq_self_iff_true,
          Bool.false_eq_true, if_true, if_false]
        omega

theorem retryFrom_success (outcome : Nat → Option Nat) (mr b : Nat) :
    ∀ n a k, k - a ≤ n → a ≤ k → k ≤ mr → outcome k = none →
      (∀ j, a ≤ j → j < k → outcome j ≠ none) →
      retryFrom outcome mr b a =
        ((List.range' a (k - a)).flatMap
          (fun j => [.attempt j, .sleep (b * 2 ^ j)]) ++ [.attempt k], none) := by
  intro n
  induction n with
  | zero =>
    intro a k h1 h2 h3 hk hbef
    have hak : a = k := by omega
    subst hak
    rw [retryFrom, hk]
    simp
  | succ n ih =>
    intro a k h1 h2 h3 hk hbef
    by_cases hak : a = k
    · subst hak
      rw [retryFrom, hk]
      simp
    · have halt : a < k := by omega
      cases he : outcome a with
      | none => exact absurd he (hbef a (le_refl a) halt)
      | some e =>
        rw [retryFrom, he]
        dsimp only
        rw [dif_pos (by omega)]
        rw [ih (a + 1) k (by omega) (by omega) h3 hk
          (fun j hj1 hj2 => hbef j (by omega) hj2)]
        rw [show k - a = (k - (a + 1)) + 1 by omega, List.range'_succ]
        simp

theorem retryFrom_allfail (outcome : Nat → Option Nat) (mr b : Nat) :
    ∀ n a, mr - a ≤ n → a ≤ mr →
      (∀ j, a ≤ j → j ≤ mr → outcome j ≠ none) →
      retryFrom outcome mr b a =
        ((List.range' a (mr - a)).flatMap
          (fun j => [.attempt j, .sleep (b * 2 ^ j)]) ++ [.attempt mr],
         outcome mr) := by
  intro n
  induction n with
  | zero =>
    intro a h1 h2 hbef
    have ham : a = mr := by omega
    subst ham
    cases he : outcome a with
    | none => exact absurd he (hbef a (le_refl a) (le_refl a))
    | some e =>
      rw [retryFrom, he]
      dsimp only
      rw [dif_neg (by omega)]
      simp [he]
  | succ n ih =>
    intro a h1 h2 hbef
    by_cases ham : a = mr
    · subst ham
      cases he : outcome a with
      | none => exact absurd he (hbef a (le_refl a) (le_refl a))
      | some e =>
        rw [retryFrom, he]
        dsimp only
        rw [dif_neg (by omega)]
        simp [he]
    · cases he : outcome a with
      | none => exact absurd he (hbef a (le_refl a) (by omega))
      | some e =>
        rw [retryFrom, he]
        dsimp only
        rw [dif_pos (by omega)]
        rw [ih (a + 1) (by omega) (by omega)
          (fun j hj1 hj2 => hbef j (by omega) hj2)]
        rw [show mr - a = (mr - (a + 1)) + 1 by omega, List.range'_succ]
        simp

/-- C7: `refreshBalancesWithRetry` performs at most `maxRetries + 1` refresh
attempts (4 with the defaults); it returns successfully as soon as an
attempt succeeds, having slept `baseRetryDelay * 2 ^ k` after each failed
attempt `k` (1s, 2s, 4s with the defaults); and it returns the last error
exactly when every attempt fails. -/
theorem refresh_retry_spec (outcome : Nat → Option Nat) (mr b : Nat) :
    ((refreshBalancesWithRetry outcome mr b).1.countP isAttemptEv ≤ mr + 1) ∧
    (∀ k, k ≤ mr → outcome k = none → (∀ j, j < k → outcome j ≠ none) →
      refreshBalancesWithRetry outcome mr b =
        ((List.range k).flatMap
          (fun j => [.attempt j, .sleep (b * 2 ^ j)]) ++ [.attempt k], none)) ∧
    ((∀ j, j ≤ mr → outcome j ≠ none) →
      refreshBalancesWithRetry outcome mr b =
        ((List.range mr).flatMap
          (fun j => [.attempt j, .sleep (b * 2 ^ j)]) ++ [.attempt mr],
         outcome mr)) := by
  refine ⟨?_, ?_, ?_⟩
  · have h := retryFrom_count_le outcome mr b mr 0 (by omega)
    simpa [refreshBalancesWithRetry] using h
  · intro k hk hsucc hbef
    have h := retryFrom_success outcome mr b k 0 k (by omega) (by omega) hk hsucc
      (fun j hj1 hj2 => hbef j hj2)
    rw [refreshBalancesWithRetry, h, List.range_eq_range' k]
    simp
  · intro hbef
    have h := retryFrom_allfail outcome mr b mr 0 (by omega) (by omega)
      (fun j hj1 hj2 => hbef j hj2)
    rw [refreshBalancesWithRetry, h, List.range_eq_range' mr]
    simp

/-- C7 witness: with the default `maxRetries = 3`, `baseRetryDelay = 1000`
and a refresh that fails once then succeeds: one 1000ms backoff sleep, then
the successful second attempt, and no error. -/
theorem refresh_retry_witness :
    refreshBalancesWithRetry (fun k => if k = 0 then some 5 else none) 3 1000 =
      ([.attempt 0, .sleep 1000, .attempt 1], none) := by
  have h := (refresh_retry_spec (fun k => if k = 0 then some 5 else none)
    3 1000).2.1 1 (by decide) (by decide) (by decide)
  simpa using h

/-! ## The bundle stage's progress protocol (C8) -/

theorem progsOf_append (a b : List Event) :
    progsOf (a ++ b) = progsOf a ++ progsOf b := by
  simp [progsOf]

theorem progsOf_flatMap (l : List Nat) (f : Nat → List Event) :
    progsOf (l.flatMap f) = l.flatMap (fun i => progsOf (f i)) := by
  induction l with
  | nil => rfl
  | cons x xs ih =>
    rw [List.flatMap_cons, List.flatMap_cons, progsOf_append, ih]

/-- The progress callbacks of the bundle stage, in order: one per signature,
two per prerequisite transaction (before and after sending), two for the
main transaction. -/
theorem progsOf_bundleStage (s p : Nat) (action : VaultAction) :
    progsOf (bundleStage s p action) =
      ((List.range s).map fun i =>
        (⟨.signing, i, s + p + 1, signLabel s i, none⟩ : ProgressStep)) ++
      ((List.range p).flatMap fun i =>
        [(⟨.approving, s + i, s + p + 1, prereqLabel p i, none⟩ : ProgressStep),
         ⟨.approving, s + i, s + p + 1, prereqLabel p i, some i⟩]) ++
      [⟨.confirming, s + p, s + p + 1, mainLabel action, none⟩,
       ⟨.confirming, s + p, s + p + 1, mainLabel action, some p⟩] := by
  unfold bundleStage
  rw [progsOf_append, progsOf_append, progsOf_flatMap, progsOf_flatMap]
  congr 2
  · rw [show (fun i => progsOf
        [.prog ⟨.signing, i, s + p + 1, signLabel s i, none⟩, .sign i]) =
      (fun i => [(⟨.signing, i, s + p + 1, signLabel s i, none⟩ : ProgressStep)])
      from rfl]
    induction (List.range s) with
    | nil => rfl
    | cons x xs ih => rw [List.flatMap_cons, List.map_cons, ih]; rfl

theorem pairwise_le_range_flatMap_dup (s : Nat) (p : Nat) :
    List.Pairwise (fun x y => x ≤ y)
      ((List.range p).flatMap fun i => [s + i, s + i]) := by
  induction p with
  | zero => simp
  | succ n ih =>
    rw [List.range_succ, List.flatMap_append]
    refine List.pairwise_append.mpr ⟨ih, by simp, ?_⟩
    intro x hx y hy
    simp only [List.mem_flatMap, List.mem_range, List.mem_cons,
      List.not_mem_nil, or_false, List.flatMap_cons, List.flatMap_nil,
      List.append_nil] at hx hy
    obtain ⟨i, hi, hx⟩ := hx
    rcases hx with rfl | rfl <;> rcases hy with rfl | rfl <;> omega

theorem pairwise_le_of_all_eq {l : List Nat} (c : Nat) (h : ∀ x ∈ l, x = c) :
    List.Pairwise (fun x y => x ≤ y) l := by
  induction l with
  | nil => simp
  | cons x xs ih =>
    refine List.Pairwise.cons ?_ (ih fun y hy => h y (by simp [hy]))
    intro y hy
    rw [h x (by simp), h y (by simp [hy])]

/-- C8: in the bundle stage of `executeVaultAction` every progress step
carries `totalSteps = signatureCount + prerequisiteTxCount + 1` and a
`stepIndex` strictly below it; the step indices are non-decreasing; and the
step types appear in signing-then-approving-then-confirming order (their
ranks are non-decreasing along the trace). -/
theorem bundle_progress_order (s p : Nat) (action : VaultAction) :
    ((progsOf (bundleStage s p action)).all fun st =>
      decide (st.totalSteps = s + p + 1) && decide (st.stepIndex < s + p + 1))
        = true ∧
    List.Pairwise (fun x y => x ≤ y)
      ((progsOf (bundleStage s p action)).map ProgressStep.stepIndex) ∧
    List.Pairwise (fun x y => x ≤ y)
      ((progsOf (bundleStage s p action)).map fun st => stepRank st.stype) := by
  rw [progsOf_bundleStage]
  refine ⟨?_, ?_, ?_⟩
  · rw [List.all_eq_true]
    intro st hst
    simp only [List.mem_append, List.mem_map, List.mem_flatMap, List.mem_range,
      List.mem_cons, List.not_mem_nil, or_false] at hst
    rcases hst with (⟨i, hi, rfl⟩ | ⟨i, hi, rfl | rfl⟩) | (rfl | rfl) <;>
      simp only [Bool.and_eq_true, decide_eq_true_eq] <;>
      exact ⟨by trivial, by omega⟩
  · rw [List.map_append, List.map_append]
    have hA : ((List.range s).map fun i =>
        (⟨.signing, i, s + p + 1, signLabel s i, none⟩ : ProgressStep)).map
          ProgressStep.stepIndex = List.range s := by
      rw [List.map_map]
      exact List.map_id (List.range s)
    have hB : (((List.range p).flatMap fun i =>
        [(⟨.approving, s + i, s + p + 1, prereqLabel p i, none⟩ : ProgressStep),
         ⟨.approving, s + i, s + p + 1, prereqLabel p i, some i⟩]).map
          ProgressStep.stepIndex) =
        (List.range p).flatMap fun i => [s + i, s + i] := by
      induction (List.range p) with
      | nil => rfl
      | cons x xs ih =>
        rw [List.flatMap_cons, List.flatMap_cons, List.map_append, ih]
        rfl
    rw [hA, hB]
    refine List.pairwise_append.mpr ⟨List.pairwise_append.mpr
      ⟨?_, pairwise_le_range_flatMap_dup s p, ?_⟩, by simp, ?_⟩
    · exact (List.pairwise_lt_range s).imp (fun h => by omega)
    · intro x hx y hy
      simp only [List.mem_range] at hx
      simp only [List.mem_flatMap, List.mem_range, List.mem_cons,
        List.not_mem_nil, or_false] at hy
      obtain ⟨i, hi, hy⟩ := hy
      rcases hy with rfl | rfl <;> omega
    · intro x hx y hy
      simp only [List.mem_append, List.mem_range, List.mem_flatMap,
        List.mem_cons, List.not_mem_nil, or_false] at hx
      have hxle : x ≤ s + p := by
        rcases hx with hx | ⟨i, hi, hx⟩
        · omega
        · rcases hx with rfl | rfl <;> omega
      have hy2 : y = s + p := by
        simp only [List.mem_map, List.mem_cons, List.not_mem_nil, or_false] at hy
        obtain ⟨st, hst, rfl⟩ := hy
        rcases hst with rfl | rfl <;> rfl
      omega
  · rw [List.map_append, List.map_append]
    have hval : ∀ x ∈ (((List.range s).map fun i =>
          (⟨.signing, i, s + p + 1, signLabel s i, none⟩ : ProgressStep)).map
            fun st => stepRank st.stype), x = 0 := by
      intro x hx
      simp only [List.mem_map, List.mem_range] at hx
      obtain ⟨st, ⟨i, hi, rfl⟩, rfl⟩ := hx
      rfl
    have hvalB : ∀ x ∈ ((((List.range p).flatMap fun i =>
          [(⟨.approving, s + i, s + p + 1, prereqLabel p i, none⟩ : ProgressStep),
           ⟨.approving, s + i, s + p + 1, prereqLabel p i, some i⟩]).map
            fun st => stepRank st.stype)), x = 1 := by
      intro x hx
      simp only [List.mem_map, List.mem_flatMap, List.mem_range, List.mem_cons,
        List.not_mem_nil, or_false] at hx
      obtain ⟨st, ⟨i, hi, hst⟩, rfl⟩ := hx
      rcases hst with rfl | rfl <;> rfl
    refine List.pairwise_append.mpr ⟨List.pairwise_append.mpr
      ⟨pairwise_le_of_all_eq 0 hval, pairwise_le_of_all_eq 1 hvalB, ?_⟩,
      pairwise_le_of_all_eq 2 (by
        intro x hx
        simp only [List.mem_map, List.mem_cons, List.not_mem_nil, or_false] at hx
        obtain ⟨st, hst, rfl⟩ := hx
        rcases hst with rfl | rfl <;> rfl), ?_⟩
    · intro x hx y hy
      rw [hval x hx, hvalB y hy]
      omega
    · intro x hx y hy
      have hx2 : x ≤ 1 := by
        rcases List.mem_append.mp hx with hx | hx
        · rw [hval x hx]
          omega
        · rw [hvalB x hx]
      have hy2 : y = 2 := by
        simp only [List.mem_map, List.mem_cons, List.not_mem_nil, or_false] at hy
        obtain ⟨st, hst, rfl⟩ := hy
        rcases hst with rfl | rfl <;> rfl
      omega

end Vault
